import Mathlib

/-!
Verification development for `docset_gen.py`, the Pebble SDK docset generator.

The Python source is shallowly embedded as executable Lean definitions:

* signature text is a `List Char`; the five compiled regular expressions of
  `regexs` become deterministic matching functions (`lastWordMatch`,
  `macroMatch`, `functionMatch`, `typedefFunctionMatch`, `typedefMatch`)
  whose control flow mirrors the backtracking behaviour of Python `re.match`
  on those concrete patterns (each definition carries the pattern it embeds
  and, where the backtracking collapses to a deterministic scan, the argument
  why);
* a bs4 `PageElement` becomes the `Element` structure (tag name, class list,
  id attribute, `.string`, and the nested `div.memproto > table.memname`
  text); raising Python exceptions becomes returning `Except.error`;
* the sqlite `searchIndex` table with its `(name, type, path)` unique index
  and `INSERT OR IGNORE` statement becomes a duplicate-dropping insert into a
  list of rows.

Python's `\w` and `\s` (with `re.UNICODE`) are modelled on their ASCII
fragment, which covers every character class fact the development uses.
-/

/-- Python regex `\w` (ASCII fragment): letters, digits and underscore. -/
def isWordChar (c : Char) : Bool := c.isAlphanum || c == '_'

/-- Python regex `\s` (ASCII fragment): the six whitespace characters. -/
def isSpaceChar (c : Char) : Bool :=
  c == ' ' || c == '\t' || c == '\n' || c == '\r' || c == '\x0b' || c == '\x0c'

theorem space_not_word {c : Char} (h : isSpaceChar c = true) : isWordChar c = false := by
  simp only [isSpaceChar, Bool.or_eq_true, beq_iff_eq] at h
  rcases h with ((((h | h) | h) | h) | h) | h <;> subst h <;> decide

theorem word_not_space {c : Char} (h : isWordChar c = true) : isSpaceChar c = false := by
  cases hs : isSpaceChar c with
  | false => rfl
  | true => rw [space_not_word hs] at h; exact absurd h (by simp)

/-! ### Generic `takeWhile` / `dropWhile` facts used to evaluate the matchers -/

theorem takeWhile_append_run {α} (p : α → Bool) (s r : List α)
    (hs : ∀ a ∈ s, p a = true) (hr : ∀ c, r.head? = some c → p c = false) :
    (s ++ r).takeWhile p = s := by
  induction s with
  | nil =>
    cases r with
    | nil => rfl
    | cons c t => simp [List.takeWhile_cons, hr c rfl]
  | cons a s ih =>
    have ha := hs a (List.mem_cons_self a s)
    simp [List.takeWhile_cons, ha,
      ih (fun b hb => hs b (List.mem_cons_of_mem a hb))]

theorem dropWhile_append_run {α} (p : α → Bool) (s r : List α)
    (hs : ∀ a ∈ s, p a = true) (hr : ∀ c, r.head? = some c → p c = false) :
    (s ++ r).dropWhile p = r := by
  induction s with
  | nil =>
    cases r with
    | nil => rfl
    | cons c t => simp [List.dropWhile_cons, hr c rfl]
  | cons a s ih =>
    have ha := hs a (List.mem_cons_self a s)
    simp [List.dropWhile_cons, ha,
      ih (fun b hb => hs b (List.mem_cons_of_mem a hb))]

theorem dropWhile_append_of_ne_nil {α} (p : α → Bool) (x y : List α)
    (hx : x.dropWhile p ≠ []) : (x ++ y).dropWhile p = x.dropWhile p ++ y := by
  induction x with
  | nil => simp [List.dropWhile_nil] at hx
  | cons a x ih =>
    cases hpa : p a with
    | true =>
      rw [List.dropWhile_cons, hpa] at hx
      simp only [List.cons_append, List.dropWhile_cons, hpa, if_pos rfl]
      exact ih hx
    | false =>
      simp only [List.cons_append, List.dropWhile_cons, hpa]
      simp only [List.dropWhile_cons, hpa] at hx ⊢
      simp

theorem mem_of_mem_dropWhile {α} {p : α → Bool} {x : α} :
    ∀ {l : List α}, x ∈ l.dropWhile p → x ∈ l := by
  intro l
  induction l with
  | nil => intro h; simp at h
  | cons a l ih =>
    intro h
    rw [List.dropWhile_cons] at h
    by_cases hpa : p a = true
    · rw [if_pos hpa] at h
      exact List.mem_cons_of_mem a (ih h)
    · rw [if_neg hpa] at h
      exact h

theorem head_dropWhile_not {α} (p : α → Bool) :
    ∀ (l : List α) (c : α), (l.dropWhile p).head? = some c → p c = false := by
  intro l
  induction l with
  | nil => intro c h; simp at h
  | cons a l ih =>
    intro c h
    rw [List.dropWhile_cons] at h
    by_cases hpa : p a = true
    · rw [if_pos hpa] at h
      exact ih c h
    · rw [if_neg hpa] at h
      simp only [List.head?_cons, Option.some.injEq] at h
      subst h
      simp only [Bool.not_eq_true] at hpa
      exact hpa

theorem all_takeWhile {α} (p : α → Bool) :
    ∀ (l : List α) (a : α), a ∈ l.takeWhile p → p a = true := by
  intro l
  induction l with
  | nil => intro a h; simp at h
  | cons b l ih =>
    intro a h
    rw [List.takeWhile_cons] at h
    by_cases hpb : p b = true
    · rw [if_pos hpb] at h
      rcases List.mem_cons.mp h with h | h
      · exact h ▸ hpb
      · exact ih a h
    · rw [if_neg hpb] at h
      simp at h

/-! ### The five regular expressions of `regexs`

Each definition embeds one compiled pattern of the source's `regexs` table.
All patterns are compiled with `re.DOTALL`, so `.` matches every character,
and are used through `re.match` (anchored at the start of the text).
`none` models `re.match` returning `None`, which makes the subsequent
`.group(...)` call in `parse_declaration` raise `AttributeError`.
-/

/-- Matching `(?P<name>\w+)\s*$` at the head of the text: a greedy word run
followed by nothing but whitespace.  Backtracking `\w+` to a shorter run
cannot help, because the remainder would then start with a word character and
`\s*$` would fail on it; so the greedy first attempt is the only one. -/
def wordSpacesEnd (cs : List Char) : Option (List Char) :=
  let w := cs.takeWhile isWordChar
  let rest := cs.dropWhile isWordChar
  if w ≠ [] ∧ rest.all isSpaceChar then some w else none

/-- `regexs['last_word']`: pattern `.*?(?P<name>\w+)\s*$` (DOTALL).
The lazy `.*?` tries successively longer prefixes to skip, so the match drops
characters from the front one at a time until `(\w+)\s*$` matches. -/
def lastWordMatch : List Char → Option (List Char)
  | [] => none
  | c :: rest =>
    match wordSpacesEnd (c :: rest) with
    | some w => some w
    | none => lastWordMatch rest

/-- A literal character sequence in a pattern (e.g. `\#define`, `typedef`). -/
def dropLit : List Char → List Char → Option (List Char)
  | [], cs => some cs
  | l :: ls, c :: cs => if c = l then dropLit ls cs else none
  | _ :: _, [] => none

/-- The literal `\#define` of `regexs['macro']`. -/
def defineLit : List Char := ['#', 'd', 'e', 'f', 'i', 'n', 'e']

/-- The literal `typedef` of `regexs['typedef_function']` and `regexs['typedef']`. -/
def typedefLit : List Char := ['t', 'y', 'p', 'e', 'd', 'e', 'f']

/-- `regexs['macro']`: pattern `^\s*\#define\s+(?P<name>\w+)\s+.*$`
(VERBOSE, DOTALL).  Every greedy piece is forced: `^\s*` must end exactly at
the `#` (a shorter run leaves a whitespace character where `#` is required),
`\s+` must be maximal (a shorter run leaves whitespace where `\w` is
required), and `\w+` must be maximal (a shorter run leaves a word character
where `\s` is required).  The trailing `.*$` matches any remainder, so after
the name only the presence of one whitespace character matters. -/
def macroMatch (cs : List Char) : Option (List Char) :=
  let cs0 := cs.dropWhile isSpaceChar
  match dropLit defineLit cs0 with
  | none => none
  | some cs1 =>
    match cs1 with
    | [] => none
    | c :: cs2 =>
      if isSpaceChar c then
        let cs3 := cs2.dropWhile isSpaceChar
        let name := cs3.takeWhile isWordChar
        if name = [] then none
        else
          match cs3.dropWhile isWordChar with
          | [] => none
          | d :: _ => if isSpaceChar d then some name else none
      else none

/-- The suffix `\s+(?P<fn_name>\w+)\s*\(.*$` of `regexs['function']`,
returning the `fn_name` group.  As in `macroMatch`, every greedy piece is
forced by the character class that follows it. -/
def afterType (cs : List Char) : Option (List Char) :=
  if cs.takeWhile isSpaceChar = [] then none
  else
    let cs1 := cs.dropWhile isSpaceChar
    let name := cs1.takeWhile isWordChar
    if name = [] then none
    else
      match (cs1.dropWhile isWordChar).dropWhile isSpaceChar with
      | c2 :: _ => if c2 = '(' then some name else none
      | [] => none

/-- The suffix `(?P<fn_type>\w+(?:\s*\*)?)\s+(?P<fn_name>\w+)\s*\(.*$` of
`regexs['function']`.  The optional group `(?:\s*\*)?` is greedy: the branch
that consumes `\s*\*` is tried first, and only if its continuation fails does
matching resume directly after `fn_type` with the group skipped.  Inside the
group there is a single candidate `*` position (after the maximal whitespace
run), because a shorter `\s*` leaves a whitespace character where `*` is
required. -/
def typeThen (cs : List Char) : Option (List Char) :=
  let t := cs.takeWhile isWordChar
  if t = [] then none
  else
    let cs1 := cs.dropWhile isWordChar
    let starBranch : Option (List Char) :=
      match cs1.dropWhile isSpaceChar with
      | c2 :: cs3 => if c2 = '*' then afterType cs3 else none
      | [] => none
    match starBranch with
    | some n => some n
    | none => afterType cs1

/-- `regexs['function']`: pattern
`^\s*(?:(?P<fn_modifier>\w+)\s+)?(?P<fn_type>\w+(?:\s*\*)?)\s+(?P<fn_name>\w+)\s*\(.*$`
(VERBOSE, DOTALL).  The optional modifier group is greedy, so the
interpretation that consumes a leading word plus whitespace is tried first
and the group is skipped only when that whole continuation fails.
Backtracking the modifier `\w+` to a shorter run cannot help (the following
`\s+` would then face a word character), so the group has the single
candidate shown. -/
def functionMatch (cs : List Char) : Option (List Char) :=
  let cs0 := cs.dropWhile isSpaceChar
  let withMod : Option (List Char) :=
    let m := cs0.takeWhile isWordChar
    if m = [] then none
    else
      let cs1 := cs0.dropWhile isWordChar
      if cs1.takeWhile isSpaceChar = [] then none
      else typeThen (cs1.dropWhile isSpaceChar)
  match withMod with
  | some n => some n
  | none => typeThen cs0

/-- `regexs['typedef_function']`: pattern
`^\s*typedef\s+(?P<fn_type>\w+)\s*\(\*\s+(?P<fn_name>\w+)\s*\)\(.*$`
(VERBOSE, DOTALL), returning the `fn_name` group.  Note the mandatory
whitespace between `*` and the name, and the adjacent `)(` pair. -/
def typedefFunctionMatch (cs : List Char) : Option (List Char) :=
  let cs0 := cs.dropWhile isSpaceChar
  match dropLit typedefLit cs0 with
  | none => none
  | some cs1 =>
    match cs1 with
    | [] => none
    | c :: cs2 =>
      if isSpaceChar c then
        let cs3 := cs2.dropWhile isSpaceChar
        let t := cs3.takeWhile isWordChar
        if t = [] then none
        else
          match (cs3.dropWhile isWordChar).dropWhile isSpaceChar with
          | [] => none
          | c2 :: cs4a =>
            if c2 = '(' then
              match cs4a with
              | [] => none
              | c3 :: cs4 =>
                if c3 = '*' then
                  match cs4 with
                  | [] => none
                  | d :: cs5 =>
                    if isSpaceChar d then
                      let cs6 := cs5.dropWhile isSpaceChar
                      let name := cs6.takeWhile isWordChar
                      if name = [] then none
                      else
                        match (cs6.dropWhile isWordChar).dropWhile isSpaceChar with
                        | [] => none
                        | c4 :: cs7 =>
                          if c4 = ')' then
                            match cs7 with
                            | [] => none
                            | c5 :: _ => if c5 = '(' then some name else none
                          else none
                    else none
                else none
            else none
      else none

/-- `regexs['typedef']`: pattern `^\s*typedef\s+.*?(?P<name>\w+)\s*$`
(VERBOSE, DOTALL).  After `typedef` and one mandatory whitespace character,
the remaining `\s*.*?(\w+)\s*$` captures exactly what
`.*?(\w+)\s*$` captures on the remainder (the lazy `.*?` absorbs whatever a
shorter `\s+` run would have left over), which is `lastWordMatch`. -/
def typedefMatch (cs : List Char) : Option (List Char) :=
  let cs0 := cs.dropWhile isSpaceChar
  match dropLit typedefLit cs0 with
  | none => none
  | some cs1 =>
    match cs1 with
    | [] => none
    | c :: cs2 => if isSpaceChar c then lastWordMatch cs2 else none

/-- `parse_declaration(type_, text)`: dispatch on the symbol kind string.
A `none` result models the `AttributeError` raised by calling `.group(...)`
on a failed (`None`) match; the final catch-all models the
`UnboundLocalError` raised by `return result` when no branch assigned
`result`. -/
def parse_declaration (ty : String) (text : List Char) : Option (List Char) :=
  match ty with
  | "Function" => functionMatch text
  | "Macro" => macroMatch text
  | "Struct" | "Enum" => lastWordMatch text
  | "Type" =>
    match typedefFunctionMatch text with
    | some n => some n
    | none =>
      match typedefMatch text with
      | some n => some n
      | none => lastWordMatch text
  | _ => none

/-! ### The document model

A bs4 `PageElement` is either a tag or a `NavigableString` (whose `.name` is
`None`).  Only the attributes the source reads are modelled: the tag name,
the `class` attribute (a list, empty when absent), the `id` attribute,
bs4's `.string`, and the text of the nested `div.memproto > table.memname`
structure that `parse_section` extracts from a declaration block:
`memproto = none` models `element.find('div', 'memproto')` returning `None`,
`memproto = some none` models the `memproto` div being present but
`find('table', 'memname')` returning `None`, and `memproto = some (some t)`
models the full structure with `table_el.text = t`. -/
structure Element where
  name : Option String
  classes : List String
  idAttr : Option String
  string : Option String
  memproto : Option (Option (List Char))
deriving DecidableEq

/-- One record produced by the extractor (`SearchIndexData` in the source);
also one row of the `(name, type, path)` unique index of `searchIndex`. -/
structure SearchIndexData where
  name : List Char
  type : String
  path : String
deriving DecidableEq

/-- `is_tag(element)`: `element.name is not None`. -/
def is_tag (element : Element) : Bool := element.name.isSome

/-- `is_group_header(element)`:
`is_tag(element) and 'groupheader' in element.get('class', ())`. -/
def is_group_header (element : Element) : Bool :=
  is_tag element && element.classes.contains "groupheader"

/-- `is_anchor(element)`: `is_tag(element) and element.name == 'a'`.
The class check (`'anchor' in element.get('class', ())`) is commented out in
the source, so every `a` tag counts, whatever its classes. -/
def is_anchor (element : Element) : Bool :=
  is_tag element && element.name == some "a"

/-- `is_declaration(element)`:
`is_tag(element) and element.name == 'div' and 'memitem' in element.get('class', ())`. -/
def is_declaration (element : Element) : Bool :=
  is_tag element && element.name == some "div" && element.classes.contains "memitem"

namespace HTMLParser

/-- `HTMLParser.section_type_map`, looked up with `self.section_type_map[name]`.
`none` models the key being absent, which makes the subscript raise
`KeyError` (also for `name = None`, which never reaches the lookup). -/
def section_type_map (name : Option String) : Option String :=
  if name = some "Function Documentation" then some "Function"
  else if name = some "Data Structure Documentation" then some "Struct"
  else if name = some "Typedef Documentation" then some "Type"
  else if name = some "Enumeration Type Documentation" then some "Enum"
  else if name = some "Macro Definition Documentation" then some "Macro"
  else none

/-- `HTMLParser.sections_to_skip = ['Detailed Description', None]`. -/
def sections_to_skip : List (Option String) := [some "Detailed Description", none]

/-- The label-tagging loop of `sections_elements_iterator`: walk the children
of the contents container tracking `group_name`, updating it at each group
header before yielding `(group_name, el)`. -/
def labelStream : Option String → List Element → List (Option String × Element)
  | _, [] => []
  | group_name, el :: rest =>
    let g := if is_tag el && is_group_header el then el.string else group_name
    (g, el) :: labelStream g rest

/-- `sections_elements_iterator`: `soup.find('div', 'contents')` either
yields the container's children (`some els`) or `None` (`none`), in which
case `for el in contents_el` raises
`TypeError: 'NoneType' object is not iterable` as soon as the generator is
consumed. -/
def sections_elements_iterator (contents : Option (List Element)) :
    Except String (List (Option String × Element)) :=
  match contents with
  | none => Except.error "TypeError"
  | some els => Except.ok (labelStream none els)

/-- The record path: `path = self.path; if anchor_id: path += f"#..."`.
Python truthiness makes both `None` and the empty string leave the bare
page path. -/
def anchorPath (path : String) : Option String → String
  | some a => if a = "" then path else path ++ "#" ++ a
  | none => path

/-- The element scan of `parse_section` after the kind lookup: anchors update
`anchor_id`, declaration blocks are parsed and emitted, everything else is
skipped.  `Except.error` models the exceptions that abort the run:
`AttributeError` from `.find(...)` / `.text` on `None` when the nested
`memproto`/`memname` structure is missing, and `AttributeError` from
`.group(...)` on a failed match inside `parse_declaration`. -/
def parse_section_go (path : String) (ty : String) :
    Option String → List Element → Except String (List SearchIndexData)
  | _, [] => Except.ok []
  | anchor_id, element :: rest =>
    if is_anchor element then parse_section_go path ty element.idAttr rest
    else if is_declaration element = false then parse_section_go path ty anchor_id rest
    else
      match element.memproto with
      | none => Except.error "AttributeError"
      | some none => Except.error "AttributeError"
      | some (some declaration) =>
        match parse_declaration ty declaration with
        | none => Except.error "AttributeError"
        | some obj_name =>
          match parse_section_go path ty anchor_id rest with
          | Except.error e => Except.error e
          | Except.ok recs =>
            Except.ok (SearchIndexData.mk obj_name ty (anchorPath path anchor_id) :: recs)

/-- `parse_section(name, elements)`: skip listed labels, look the label up in
`section_type_map` (raising `KeyError` when absent), then scan the elements
with `anchor_id` initially `None`. -/
def parse_section (path : String) (name : Option String) (elements : List Element) :
    Except String (List SearchIndexData) :=
  if name ∈ sections_to_skip then Except.ok []
  else
    match section_type_map name with
    | none => Except.error "KeyError"
    | some ty => parse_section_go path ty none elements

/-- `itertools.groupby` with `key=itemgetter(0)`: group consecutive pairs
with equal label. -/
def groupByLabel : List (Option String × Element) → List (Option String × List Element)
  | [] => []
  | (k, e) :: rest =>
    match groupByLabel rest with
    | [] => [(k, [e])]
    | (k2, es) :: gs =>
      if k = k2 then (k, e :: es) :: gs else (k, [e]) :: (k2, es) :: gs

/-- Sequencing the per-section generators of `parse`: the first raised
exception aborts, otherwise the records concatenate in order. -/
def collectSections (path : String) :
    List (Option String × List Element) → Except String (List SearchIndexData)
  | [] => Except.ok []
  | (name, es) :: gs =>
    match parse_section path name es with
    | Except.error e => Except.error e
    | Except.ok recs =>
      match collectSections path gs with
      | Except.error e => Except.error e
      | Except.ok rest => Except.ok (recs ++ rest)

/-- `HTMLParser.parse`: group the labelled element stream by consecutive
equal labels and run `parse_section` on every group.  `contents` is the
result of locating the page's `div.contents` container (`none` when the page
has no such container). -/
def parse (contents : Option (List Element)) (path : String) :
    Except String (List SearchIndexData) :=
  match sections_elements_iterator contents with
  | Except.error e => Except.error e
  | Except.ok stream => collectSections path (groupByLabel stream)

end HTMLParser

/-! ### The index store

`take_db` drops and recreates `searchIndex`, so a run starts from an empty
table; the table carries `CREATE UNIQUE INDEX anchor ON searchIndex (name,
type, path)` and every row is inserted with `INSERT OR IGNORE INTO
searchIndex(name, type, path) VALUES (?,?,?)`.  A table state is modelled as
the list of its `(name, type, path)` rows in insertion order. -/

/-- The fresh table produced by `take_db`: no rows. -/
def take_db : List SearchIndexData := []

/-- `INSERT OR IGNORE` against the unique index over `(name, type, path)`:
a row whose triple is already present is dropped without error. -/
def insertOrIgnore (rows : List SearchIndexData) (r : SearchIndexData) :
    List SearchIndexData :=
  if r ∈ rows then rows else rows ++ [r]

/-- The insert loop of `main`: every collected record is inserted in order
into the fresh table. -/
def runInserts (records : List SearchIndexData) : List SearchIndexData :=
  records.foldl insertOrIgnore take_db

/-! ### Claims C1, C8, C9 (section handling) and C7 (store) -/

/-- Claim C1, counterexample.  On a page with no `div.contents` container the
extractor does not yield zero records: `soup.find` returns `None` and
iterating it raises `TypeError`, so the claimed outcome `Except.ok []` is not
produced. -/
theorem C1_counterexample :
    HTMLParser.parse none "group__foo.html" = Except.error "TypeError" ∧
      HTMLParser.parse none "group__foo.html" ≠ Except.ok [] := by
  constructor
  · rfl
  · intro h
    have h2 : (Except.error "TypeError" : Except String (List SearchIndexData)) =
        Except.ok [] := h
    exact Except.noConfusion h2

/-- Claim C1, amended: for every page whose markup contains no main content
region, running the Declaration Extractor raises an error (`TypeError`, from
iterating the absent container) and yields no records; the absence is not
tolerated silently. -/
theorem C1_amended (path : String) :
    HTMLParser.parse none path = Except.error "TypeError" := rfl

/-- Claim C8: a section whose label is set, is not in the skip-list, and is
absent from `section_type_map` makes `parse_section` raise (`KeyError`); the
section is neither skipped nor turned into records, whatever its elements. -/
theorem C8_thm (path : String) (s : String) (elements : List Element)
    (h1 : s ≠ "Detailed Description")
    (h2 : HTMLParser.section_type_map (some s) = none) :
    HTMLParser.parse_section path (some s) elements = Except.error "KeyError" := by
  have hmem : (some s) ∉ HTMLParser.sections_to_skip := by
    simp [HTMLParser.sections_to_skip, h1]
  simp [HTMLParser.parse_section, hmem, h2]

/-- Claim C8, witness: the label "Variable Documentation" is not skipped and
not in the kind table, so even a section holding a well-formed declaration
block aborts with the lookup error. -/
theorem C8_witness :
    HTMLParser.parse_section "group__foo.html" (some "Variable Documentation")
      [Element.mk (some "div") ["memitem"] none none (some (some "int x ".toList))] =
      Except.error "KeyError" :=
  C8_thm "group__foo.html" "Variable Documentation" _ (by decide) (by decide)

/-- Claim C9: a section whose label is unset or equals the skip label
"Detailed Description" yields zero records, whatever declaration-shaped
elements it contains. -/
theorem C9_thm (path : String) (elements : List Element) :
    HTMLParser.parse_section path none elements = Except.ok [] ∧
      HTMLParser.parse_section path (some "Detailed Description") elements =
        Except.ok [] := by
  constructor <;> simp [HTMLParser.parse_section, HTMLParser.sections_to_skip]

theorem insertOrIgnore_nodup {rows : List SearchIndexData} {r : SearchIndexData}
    (h : rows.Nodup) : (insertOrIgnore rows r).Nodup := by
  unfold insertOrIgnore
  by_cases hm : r ∈ rows
  · simpa [hm]
  · simp [hm, List.nodup_append, List.disjoint_singleton, h]

theorem foldl_insertOrIgnore_nodup (records : List SearchIndexData) :
    ∀ acc : List SearchIndexData, acc.Nodup →
      (records.foldl insertOrIgnore acc).Nodup := by
  induction records with
  | nil => intro acc h; exact h
  | cons r records ih =>
    intro acc h
    exact ih (insertOrIgnore acc r) (insertOrIgnore_nodup h)

/-- Claim C7: after all records of a run are inserted into the fresh store,
each `(name, kind, location)` triple occurs in at most one row, and inserting
a triple that is already present is a no-op (`INSERT OR IGNORE`), not an
error. -/
theorem C7_thm :
    (∀ (records : List SearchIndexData) (r : SearchIndexData),
        (runInserts records).count r ≤ 1) ∧
      (∀ (rows : List SearchIndexData) (r : SearchIndexData), r ∈ rows →
        insertOrIgnore rows r = rows) := by
  constructor
  · intro records r
    have hnd : (runInserts records).Nodup :=
      foldl_insertOrIgnore_nodup records take_db (by simp [take_db])
    exact List.nodup_iff_count_le_one.mp hnd r
  · intro rows r h
    simp [insertOrIgnore, h]

/-- Claim C7, witness: re-inserting the sole row of a one-row store leaves
the store unchanged. -/
theorem C7_witness :
    insertOrIgnore [SearchIndexData.mk "foo".toList "Function" "group__foo.html"]
        (SearchIndexData.mk "foo".toList "Function" "group__foo.html") =
      [SearchIndexData.mk "foo".toList "Function" "group__foo.html"] :=
  C7_thm.2 _ _ (by simp)

/-! ### Claim C2: the Struct/Enum last-word heuristic -/

/-- A (possibly empty) run of regex whitespace characters. -/
def IsSpaceRun (s : List Char) : Prop := ∀ c ∈ s, isSpaceChar c = true

/-- A word-token: a nonempty run of regex word characters. -/
def IsWordRun (w : List Char) : Prop := w ≠ [] ∧ ∀ c ∈ w, isWordChar c = true

instance (s : List Char) : Decidable (IsSpaceRun s) :=
  inferInstanceAs (Decidable (∀ c ∈ s, isSpaceChar c = true))

instance (w : List Char) : Decidable (IsWordRun w) :=
  inferInstanceAs (Decidable (w ≠ [] ∧ ∀ c ∈ w, isWordChar c = true))

theorem head_space_not_word {s : List Char} (hs : IsSpaceRun s) :
    ∀ c, s.head? = some c → isWordChar c = false := by
  cases s with
  | nil => intro c h; simp at h
  | cons a t =>
    intro c h
    simp only [List.head?_cons, Option.some.injEq] at h
    rw [← h]
    exact space_not_word (hs a (List.mem_cons_self a t))

theorem head_word_not_space {w : List Char} (hw : ∀ c ∈ w, isWordChar c = true) :
    ∀ c, w.head? = some c → isSpaceChar c = false := by
  cases w with
  | nil => intro c h; simp at h
  | cons a t =>
    intro c h
    simp only [List.head?_cons, Option.some.injEq] at h
    rw [← h]
    exact word_not_space (hw a (List.mem_cons_self a t))

theorem wordSpacesEnd_run {w s : List Char} (hw : IsWordRun w) (hs : IsSpaceRun s) :
    wordSpacesEnd (w ++ s) = some w := by
  unfold wordSpacesEnd
  rw [takeWhile_append_run isWordChar w s hw.2 (head_space_not_word hs),
    dropWhile_append_run isWordChar w s hw.2 (head_space_not_word hs)]
  rw [if_pos ⟨hw.1, List.all_eq_true.mpr hs⟩]

theorem dropWhile_ne_nil {α} {p : α → Bool} {l : List α} {x : α}
    (hx : x ∈ l) (hpx : p x = false) : l.dropWhile p ≠ [] := by
  intro h
  have htk : l.takeWhile p = l := by
    conv_rhs => rw [← List.takeWhile_append_dropWhile (p := p) (l := l)]
    rw [h, List.append_nil]
  have hx2 : x ∈ l.takeWhile p := by rw [htk]; exact hx
  have := all_takeWhile p l x hx2
  rw [hpx] at this
  exact Bool.noConfusion this

theorem wordSpacesEnd_skip {a w s : List Char}
    (ha : ∃ a2 c, a = a2 ++ [c] ∧ isWordChar c = false)
    (hw : IsWordRun w) : wordSpacesEnd (a ++ (w ++ s)) = none := by
  obtain ⟨a2, c, rfl, hc⟩ := ha
  obtain ⟨w0, w1, rfl⟩ : ∃ w0 w1, w = w0 :: w1 := by
    cases w with
    | nil => exact absurd rfl hw.1
    | cons w0 w1 => exact ⟨w0, w1, rfl⟩
  have hne : (a2 ++ [c]).dropWhile isWordChar ≠ [] :=
    dropWhile_ne_nil (by simp) hc
  unfold wordSpacesEnd
  rw [dropWhile_append_of_ne_nil isWordChar _ _ hne]
  rw [if_neg]
  intro hcond
  have hmem : w0 ∈ (a2 ++ [c]).dropWhile isWordChar ++ (w0 :: w1 ++ s) := by simp
  have hsp := List.all_eq_true.mp hcond.2 w0 hmem
  rw [word_not_space (hw.2 w0 (List.mem_cons_self w0 w1))] at hsp
  exact Bool.noConfusion hsp

theorem lastWordMatch_run :
    ∀ (a : List Char) {w s : List Char},
      (a = [] ∨ ∃ a2 c, a = a2 ++ [c] ∧ isWordChar c = false) →
      IsWordRun w → IsSpaceRun s → lastWordMatch (a ++ (w ++ s)) = some w := by
  intro a
  induction a with
  | nil =>
    intro w s _ hw hs
    obtain ⟨w0, w1, rfl⟩ : ∃ w0 w1, w = w0 :: w1 := by
      cases w with
      | nil => exact absurd rfl hw.1
      | cons w0 w1 => exact ⟨w0, w1, rfl⟩
    have h1 : wordSpacesEnd (w0 :: (w1 ++ s)) = some (w0 :: w1) :=
      wordSpacesEnd_run hw hs
    simp only [List.nil_append, List.cons_append, lastWordMatch, List.append_eq, h1]
  | cons c a2 ih =>
    intro w s ha hw hs
    rcases ha with ha | ha
    · exact absurd ha (by simp)
    have h0 : wordSpacesEnd ((c :: a2) ++ (w ++ s)) = none :=
      wordSpacesEnd_skip ha hw
    have ha2 : a2 = [] ∨ ∃ a3 d, a2 = a3 ++ [d] ∧ isWordChar d = false := by
      obtain ⟨a3, d, heq, hd⟩ := ha
      cases a3 with
      | nil =>
        simp only [List.nil_append, List.cons.injEq] at heq
        exact Or.inl heq.2
      | cons b a4 =>
        simp only [List.cons_append, List.cons.injEq] at heq
        exact Or.inr ⟨a4, d, heq.2, hd⟩
    simp only [List.cons_append] at h0 ⊢
    simp only [lastWordMatch, h0]
    exact ih ha2 hw hs

theorem lastWordMatch_sound :
    ∀ {cs w : List Char}, lastWordMatch cs = some w →
      ∃ a s, cs = a ++ (w ++ s) ∧ IsWordRun w ∧ IsSpaceRun s := by
  intro cs
  induction cs with
  | nil => intro w h; exact absurd h (by simp [lastWordMatch])
  | cons c rest ih =>
    intro w h
    rw [lastWordMatch] at h
    cases hW : wordSpacesEnd (c :: rest) with
    | some w2 =>
      rw [hW] at h
      injection h with h
      subst h
      unfold wordSpacesEnd at hW
      by_cases hcond : (c :: rest).takeWhile isWordChar ≠ [] ∧
          ((c :: rest).dropWhile isWordChar).all isSpaceChar
      · rw [if_pos hcond] at hW
        injection hW with hW
        refine ⟨[], (c :: rest).dropWhile isWordChar, ?_, ?_, ?_⟩
        · rw [List.nil_append, ← hW, List.takeWhile_append_dropWhile]
        · exact ⟨hW ▸ hcond.1, fun d hd => all_takeWhile isWordChar _ d (hW ▸ hd)⟩
        · exact fun d hd => List.all_eq_true.mp hcond.2 d hd
      · rw [if_neg hcond] at hW
        exact Option.noConfusion hW
    | none =>
      rw [hW] at h
      obtain ⟨a, s, heq, hw, hs⟩ := ih h
      exact ⟨c :: a, s, by rw [heq, List.cons_append], hw, hs⟩

/-- Claim C2, counterexample.  The Struct signature text `Foo;` contains a
word-token, yet name extraction raises: `last_word` requires the final
word-token to be followed by nothing but whitespace, and the trailing `;`
defeats it. -/
theorem C2_counterexample :
    (∃ c ∈ "Foo;".toList, isWordChar c = true) ∧
      parse_declaration "Struct" "Foo;".toList = none := by
  constructor
  · exact ⟨'F', by decide, by decide⟩
  · rfl

/-- Claim C2, amended: for a Struct or Enum declaration, name extraction
succeeds exactly on texts that end with a word-token followed only by
whitespace, and then returns that final word-token; a text whose trailing
non-whitespace character is not a word character raises, even when the text
contains word-tokens. -/
theorem C2_amended :
    (∀ (ty : String) (a w s : List Char), (ty = "Struct" ∨ ty = "Enum") →
        (a = [] ∨ ∃ a2 c, a = a2 ++ [c] ∧ isWordChar c = false) →
        IsWordRun w → IsSpaceRun s →
        parse_declaration ty (a ++ (w ++ s)) = some w) ∧
      (∀ (ty : String) (text w : List Char), (ty = "Struct" ∨ ty = "Enum") →
        parse_declaration ty text = some w →
        ∃ a s, text = a ++ (w ++ s) ∧ IsWordRun w ∧ IsSpaceRun s) := by
  constructor
  · intro ty a w s hty ha hw hs
    rcases hty with rfl | rfl
    · exact lastWordMatch_run a ha hw hs
    · exact lastWordMatch_run a ha hw hs
  · intro ty text w hty h
    rcases hty with rfl | rfl
    · exact lastWordMatch_sound h
    · exact lastWordMatch_sound h

/-- Claim C2, witness: the Struct signature text `struct Foo` yields `Foo`. -/
theorem C2_witness :
    parse_declaration "Struct" ("struct ".toList ++ ("Foo".toList ++ [])) =
      some "Foo".toList :=
  C2_amended.1 "Struct" "struct ".toList "Foo".toList [] (Or.inl rfl)
    (Or.inr ⟨"struct".toList, ' ', by decide, by decide⟩)
    ⟨by decide, by decide⟩ (fun c hc => absurd hc (List.not_mem_nil c))

/-! ### Claim C4: the Macro pattern -/

theorem dropLit_self : ∀ (l cs : List Char), dropLit l (l ++ cs) = some cs := by
  intro l
  induction l with
  | nil => intro cs; rfl
  | cons a l ih =>
    intro cs
    simp only [List.cons_append, dropLit, if_pos rfl]
    exact ih cs

theorem dropLit_sound : ∀ (l cs rest : List Char), dropLit l cs = some rest → cs = l ++ rest := by
  intro l
  induction l with
  | nil =>
    intro cs rest h
    injection h with h
  | cons a l ih =>
    intro cs rest h
    cases cs with
    | nil => exact Option.noConfusion h
    | cons c cs2 =>
      rw [dropLit] at h
      by_cases hca : c = a
      · rw [if_pos hca] at h
        rw [hca, List.cons_append, ih cs2 rest h]
      · rw [if_neg hca] at h
        exact Option.noConfusion h

theorem macroMatch_run {s0 sp1 name : List Char} {d : Char} (rest : List Char)
    (hs0 : IsSpaceRun s0) (hsp1 : IsSpaceRun sp1) (h1 : sp1 ≠ [])
    (hname : IsWordRun name) (hd : isSpaceChar d = true) :
    macroMatch (s0 ++ (defineLit ++ (sp1 ++ (name ++ d :: rest)))) = some name := by
  obtain ⟨c, sp2, rfl⟩ : ∃ c sp2, sp1 = c :: sp2 := by
    cases sp1 with
    | nil => exact absurd rfl h1
    | cons c sp2 => exact ⟨c, sp2, rfl⟩
  obtain ⟨n0, n1, rfl⟩ : ∃ n0 n1, name = n0 :: n1 := by
    cases name with
    | nil => exact absurd rfl hname.1
    | cons n0 n1 => exact ⟨n0, n1, rfl⟩
  have hc : isSpaceChar c = true := hsp1 c (List.mem_cons_self c sp2)
  have e1 : (s0 ++ (defineLit ++ ((c :: sp2) ++ ((n0 :: n1) ++ d :: rest)))).dropWhile isSpaceChar
      = defineLit ++ ((c :: sp2) ++ ((n0 :: n1) ++ d :: rest)) :=
    dropWhile_append_run _ _ _ hs0 (fun x hx => by
      simp only [defineLit, List.cons_append, List.head?_cons, Option.some.injEq] at hx
      rw [← hx]; decide)
  have e2 : dropLit defineLit (defineLit ++ ((c :: sp2) ++ ((n0 :: n1) ++ d :: rest)))
      = some ((c :: sp2) ++ ((n0 :: n1) ++ d :: rest)) := dropLit_self _ _
  have hrw : ∀ x : Char, ((n0 :: n1) ++ d :: rest).head? = some x → isSpaceChar x = false := by
    intro x hx
    simp only [List.cons_append, List.head?_cons, Option.some.injEq] at hx
    rw [← hx]
    exact word_not_space (hname.2 n0 (List.mem_cons_self n0 n1))
  have hrd : ∀ x : Char, (d :: rest).head? = some x → isWordChar x = false := by
    intro x hx
    simp only [List.head?_cons, Option.some.injEq] at hx
    rw [← hx]
    exact space_not_word hd
  have e3 : (sp2 ++ ((n0 :: n1) ++ d :: rest)).dropWhile isSpaceChar = (n0 :: n1) ++ d :: rest :=
    dropWhile_append_run _ _ _ (fun x hx => hsp1 x (List.mem_cons_of_mem c hx)) hrw
  have e4 : ((n0 :: n1) ++ d :: rest).takeWhile isWordChar = n0 :: n1 :=
    takeWhile_append_run _ _ _ hname.2 hrd
  have e5 : ((n0 :: n1) ++ d :: rest).dropWhile isWordChar = d :: rest :=
    dropWhile_append_run _ _ _ hname.2 hrd
  unfold macroMatch
  rw [e1]
  dsimp only
  rw [e2, List.cons_append]
  dsimp only
  rw [if_pos hc, e3, e4, e5, if_neg (List.cons_ne_nil n0 n1)]
  dsimp only
  rw [if_pos hd]

theorem macroMatch_sound {cs name : List Char} (h : macroMatch cs = some name) :
    ∃ s0 sp1 d rest, cs = s0 ++ (defineLit ++ (sp1 ++ (name ++ d :: rest))) ∧
      IsSpaceRun s0 ∧ IsSpaceRun sp1 ∧ sp1 ≠ [] ∧ IsWordRun name ∧
      isSpaceChar d = true := by
  simp only [macroMatch] at h
  cases hdl : dropLit defineLit (cs.dropWhile isSpaceChar) with
  | none => rw [hdl] at h; exact Option.noConfusion h
  | some cs1 =>
    rw [hdl] at h
    cases cs1 with
    | nil => exact Option.noConfusion h
    | cons c cs2 =>
      simp only at h
      by_cases hc : isSpaceChar c = true
      · rw [if_pos hc] at h
        by_cases hname : (cs2.dropWhile isSpaceChar).takeWhile isWordChar = []
        · rw [if_pos hname] at h
          exact Option.noConfusion h
        · rw [if_neg hname] at h
          cases hdw : (cs2.dropWhile isSpaceChar).dropWhile isWordChar with
          | nil => rw [hdw] at h; exact Option.noConfusion h
          | cons d rest2 =>
            rw [hdw] at h
            simp only at h
            by_cases hd : isSpaceChar d = true
            · rw [if_pos hd] at h
              injection h with h
              refine ⟨cs.takeWhile isSpaceChar, c :: cs2.takeWhile isSpaceChar, d, rest2,
                ?_, ?_, ?_, ?_, ?_, hd⟩
              · conv_lhs => rw [← List.takeWhile_append_dropWhile (p := isSpaceChar) (l := cs)]
                congr 1
                rw [dropLit_sound _ _ _ hdl]
                congr 1
                rw [List.cons_append]
                congr 1
                conv_lhs => rw [← List.takeWhile_append_dropWhile (p := isSpaceChar) (l := cs2)]
                congr 1
                rw [← h, ← hdw]
                exact (List.takeWhile_append_dropWhile isWordChar _).symm
              · exact fun x hx => all_takeWhile isSpaceChar cs x hx
              · intro x hx
                rcases List.mem_cons.mp hx with hx | hx
                · rw [hx]; exact hc
                · exact all_takeWhile isSpaceChar cs2 x hx
              · simp
              · constructor
                · rw [← h]; exact hname
                · intro x hx
                  rw [← h] at hx
                  exact all_takeWhile isWordChar _ x hx
            · rw [if_neg hd] at h
              exact Option.noConfusion h
      · rw [if_neg hc] at h
        exact Option.noConfusion h

/-- Claim C4, counterexample.  The Macro signature text `#define FOO` does
start with `#define` followed by an identifier, yet extraction raises: the
pattern demands at least one whitespace character after the name, and here
the text ends right after `FOO`. -/
theorem C4_counterexample :
    parse_declaration "Macro" "#define FOO".toList = none := rfl

/-- Claim C4, amended: Macro name extraction returns `NAME` exactly when the
text is optional whitespace, `#define`, whitespace, `NAME`, then at least
one whitespace character followed by the rest of the line; in particular
`#define NAME` with nothing after the name raises instead of succeeding. -/
theorem C4_amended :
    (∀ (s0 sp1 name : List Char) (d : Char) (rest : List Char),
        IsSpaceRun s0 → IsSpaceRun sp1 → sp1 ≠ [] → IsWordRun name →
        isSpaceChar d = true →
        parse_declaration "Macro" (s0 ++ (defineLit ++ (sp1 ++ (name ++ d :: rest)))) =
          some name) ∧
      (∀ (text name : List Char), parse_declaration "Macro" text = some name →
        ∃ s0 sp1 d rest, text = s0 ++ (defineLit ++ (sp1 ++ (name ++ d :: rest))) ∧
          IsSpaceRun s0 ∧ IsSpaceRun sp1 ∧ sp1 ≠ [] ∧ IsWordRun name ∧
          isSpaceChar d = true) := by
  constructor
  · intro s0 sp1 name d rest hs0 hsp1 h1 hname hd
    exact macroMatch_run rest hs0 hsp1 h1 hname hd
  · intro text name h
    exact macroMatch_sound h

/-- Claim C4, witness: `#define FOO_MAX 10` yields `FOO_MAX`. -/
theorem C4_witness :
    parse_declaration "Macro" ([] ++ (defineLit ++ ([' '] ++ ("FOO_MAX".toList ++ ' ' :: "10".toList)))) =
      some "FOO_MAX".toList :=
  C4_amended.1 [] [' '] "FOO_MAX".toList ' ' "10".toList (by decide) (by decide)
    (by decide) (by decide) (by decide)

/-! ### Claim C5: the Type (typedef) strategy cascade -/

theorem head_not_word_of_spaces {ssp : List Char} (hs : IsSpaceRun ssp) {c : Char}
    (hc : isWordChar c = false) (t : List Char) :
    ∀ x, (ssp ++ c :: t).head? = some x → isWordChar x = false := by
  cases ssp with
  | nil =>
    intro x hx
    simp only [List.nil_append, List.head?_cons, Option.some.injEq] at hx
    rw [← hx]
    exact hc
  | cons a s2 =>
    intro x hx
    simp only [List.cons_append, List.head?_cons, Option.some.injEq] at hx
    rw [← hx]
    exact space_not_word (hs a (List.mem_cons_self a s2))

theorem typedefFunctionMatch_run {s0 sp1 ret ssp sp2 name ssp2 : List Char}
    (rest : List Char)
    (hs0 : IsSpaceRun s0) (hsp1 : IsSpaceRun sp1) (h1 : sp1 ≠ [])
    (hret : IsWordRun ret) (hssp : IsSpaceRun ssp)
    (hsp2 : IsSpaceRun sp2) (h2 : sp2 ≠ [])
    (hname : IsWordRun name) (hssp2 : IsSpaceRun ssp2) :
    typedefFunctionMatch
        (s0 ++ (typedefLit ++ (sp1 ++ (ret ++ (ssp ++ '(' :: '*' ::
          (sp2 ++ (name ++ (ssp2 ++ ')' :: '(' :: rest)))))))) = some name := by
  obtain ⟨c, sp1b, rfl⟩ : ∃ c sp1b, sp1 = c :: sp1b := by
    cases sp1 with
    | nil => exact absurd rfl h1
    | cons c sp1b => exact ⟨c, sp1b, rfl⟩
  obtain ⟨d, sp2b, rfl⟩ : ∃ d sp2b, sp2 = d :: sp2b := by
    cases sp2 with
    | nil => exact absurd rfl h2
    | cons d sp2b => exact ⟨d, sp2b, rfl⟩
  obtain ⟨r0, r1, rfl⟩ : ∃ r0 r1, ret = r0 :: r1 := by
    cases ret with
    | nil => exact absurd rfl hret.1
    | cons r0 r1 => exact ⟨r0, r1, rfl⟩
  obtain ⟨n0, n1, rfl⟩ : ∃ n0 n1, name = n0 :: n1 := by
    cases name with
    | nil => exact absurd rfl hname.1
    | cons n0 n1 => exact ⟨n0, n1, rfl⟩
  have hc : isSpaceChar c = true := hsp1 c (List.mem_cons_self c sp1b)
  have hd : isSpaceChar d = true := hsp2 d (List.mem_cons_self d sp2b)
  have e1 : (s0 ++ (typedefLit ++ ((c :: sp1b) ++ ((r0 :: r1) ++ (ssp ++ '(' :: '*' ::
        ((d :: sp2b) ++ ((n0 :: n1) ++ (ssp2 ++ ')' :: '(' :: rest)))))))).dropWhile isSpaceChar
      = typedefLit ++ ((c :: sp1b) ++ ((r0 :: r1) ++ (ssp ++ '(' :: '*' ::
        ((d :: sp2b) ++ ((n0 :: n1) ++ (ssp2 ++ ')' :: '(' :: rest)))))) :=
    dropWhile_append_run _ _ _ hs0 (fun x hx => by
      simp only [typedefLit, List.cons_append, List.head?_cons, Option.some.injEq] at hx
      rw [← hx]; decide)
  have e2 : dropLit typedefLit (typedefLit ++ ((c :: sp1b) ++ ((r0 :: r1) ++ (ssp ++ '(' :: '*' ::
        ((d :: sp2b) ++ ((n0 :: n1) ++ (ssp2 ++ ')' :: '(' :: rest)))))))
      = some ((c :: sp1b) ++ ((r0 :: r1) ++ (ssp ++ '(' :: '*' ::
        ((d :: sp2b) ++ ((n0 :: n1) ++ (ssp2 ++ ')' :: '(' :: rest)))))) := dropLit_self _ _
  have hrw : ∀ x : Char, ((r0 :: r1) ++ (ssp ++ '(' :: '*' ::
        ((d :: sp2b) ++ ((n0 :: n1) ++ (ssp2 ++ ')' :: '(' :: rest))))).head? = some x →
      isSpaceChar x = false := by
    intro x hx
    simp only [List.cons_append, List.head?_cons, Option.some.injEq] at hx
    rw [← hx]
    exact word_not_space (hret.2 r0 (List.mem_cons_self r0 r1))
  have e3 : (sp1b ++ ((r0 :: r1) ++ (ssp ++ '(' :: '*' ::
        ((d :: sp2b) ++ ((n0 :: n1) ++ (ssp2 ++ ')' :: '(' :: rest)))))).dropWhile isSpaceChar
      = (r0 :: r1) ++ (ssp ++ '(' :: '*' ::
        ((d :: sp2b) ++ ((n0 :: n1) ++ (ssp2 ++ ')' :: '(' :: rest)))) :=
    dropWhile_append_run _ _ _ (fun x hx => hsp1 x (List.mem_cons_of_mem c hx)) hrw
  have hrz := head_not_word_of_spaces hssp (show isWordChar '(' = false by decide)
    ('*' :: ((d :: sp2b) ++ ((n0 :: n1) ++ (ssp2 ++ ')' :: '(' :: rest))))
  have e4 : ((r0 :: r1) ++ (ssp ++ '(' :: '*' ::
        ((d :: sp2b) ++ ((n0 :: n1) ++ (ssp2 ++ ')' :: '(' :: rest))))).takeWhile isWordChar
      = r0 :: r1 :=
    takeWhile_append_run _ _ _ hret.2 hrz
  have e5 : ((r0 :: r1) ++ (ssp ++ '(' :: '*' ::
        ((d :: sp2b) ++ ((n0 :: n1) ++ (ssp2 ++ ')' :: '(' :: rest))))).dropWhile isWordChar
      = ssp ++ '(' :: '*' :: ((d :: sp2b) ++ ((n0 :: n1) ++ (ssp2 ++ ')' :: '(' :: rest))) :=
    dropWhile_append_run _ _ _ hret.2 hrz
  have e6 : (ssp ++ '(' :: '*' ::
        ((d :: sp2b) ++ ((n0 :: n1) ++ (ssp2 ++ ')' :: '(' :: rest)))).dropWhile isSpaceChar
      = '(' :: '*' :: ((d :: sp2b) ++ ((n0 :: n1) ++ (ssp2 ++ ')' :: '(' :: rest))) :=
    dropWhile_append_run _ _ _ hssp (fun x hx => by
      simp only [List.head?_cons, Option.some.injEq] at hx
      rw [← hx]; decide)
  have hru : ∀ x : Char, ((n0 :: n1) ++ (ssp2 ++ ')' :: '(' :: rest)).head? = some x →
      isSpaceChar x = false := by
    intro x hx
    simp only [List.cons_append, List.head?_cons, Option.some.injEq] at hx
    rw [← hx]
    exact word_not_space (hname.2 n0 (List.mem_cons_self n0 n1))
  have e7 : (sp2b ++ ((n0 :: n1) ++ (ssp2 ++ ')' :: '(' :: rest))).dropWhile isSpaceChar
      = (n0 :: n1) ++ (ssp2 ++ ')' :: '(' :: rest) :=
    dropWhile_append_run _ _ _ (fun x hx => hsp2 x (List.mem_cons_of_mem d hx)) hru
  have hrv := head_not_word_of_spaces hssp2 (show isWordChar ')' = false by decide)
    ('(' :: rest)
  have e8 : ((n0 :: n1) ++ (ssp2 ++ ')' :: '(' :: rest)).takeWhile isWordChar = n0 :: n1 :=
    takeWhile_append_run _ _ _ hname.2 hrv
  have e9 : ((n0 :: n1) ++ (ssp2 ++ ')' :: '(' :: rest)).dropWhile isWordChar
      = ssp2 ++ ')' :: '(' :: rest :=
    dropWhile_append_run _ _ _ hname.2 hrv
  have e10 : (ssp2 ++ ')' :: '(' :: rest).dropWhile isSpaceChar = ')' :: '(' :: rest :=
    dropWhile_append_run _ _ _ hssp2 (fun x hx => by
      simp only [List.head?_cons, Option.some.injEq] at hx
      rw [← hx]; decide)
  unfold typedefFunctionMatch
  rw [e1]
  dsimp only
  rw [e2, List.cons_append]
  dsimp only
  rw [if_pos hc, e3, e4, e5, if_neg (List.cons_ne_nil r0 r1), e6]
  dsimp only
  rw [if_pos rfl, if_pos rfl, List.cons_append]
  dsimp only
  rw [if_pos hd, e7, e8, e9, if_neg (List.cons_ne_nil n0 n1), e10]
  dsimp only
  rw [if_pos rfl, if_pos rfl]

/-- Claim C5: for Type declarations `parse_declaration` tries the
function-pointer typedef pattern, then the generic typedef pattern, then the
last-word heuristic, the first success winning; and every signature text of
the function-pointer shape `typedef RET (* NAME)( ... )` yields `NAME`, so
the function-pointer strategy takes precedence whether or not the later
strategies would also match. -/
theorem C5_thm :
    (∀ text : List Char, parse_declaration "Type" text =
        (match typedefFunctionMatch text with
         | some n => some n
         | none =>
           match typedefMatch text with
           | some n => some n
           | none => lastWordMatch text)) ∧
      (∀ (s0 sp1 ret ssp sp2 name ssp2 rest : List Char),
        IsSpaceRun s0 → IsSpaceRun sp1 → sp1 ≠ [] → IsWordRun ret →
        IsSpaceRun ssp → IsSpaceRun sp2 → sp2 ≠ [] → IsWordRun name →
        IsSpaceRun ssp2 →
        parse_declaration "Type"
            (s0 ++ (typedefLit ++ (sp1 ++ (ret ++ (ssp ++ '(' :: '*' ::
              (sp2 ++ (name ++ (ssp2 ++ ')' :: '(' :: rest)))))))) = some name) := by
  constructor
  · intro text
    rfl
  · intro s0 sp1 ret ssp sp2 name ssp2 rest hs0 hsp1 h1 hret hssp hsp2 h2 hname hssp2
    have h := typedefFunctionMatch_run rest hs0 hsp1 h1 hret hssp hsp2 h2 hname hssp2
    show (match typedefFunctionMatch (s0 ++ (typedefLit ++ (sp1 ++ (ret ++ (ssp ++ '(' :: '*' ::
          (sp2 ++ (name ++ (ssp2 ++ ')' :: '(' :: rest)))))))) with
      | some n => some n
      | none =>
        match typedefMatch (s0 ++ (typedefLit ++ (sp1 ++ (ret ++ (ssp ++ '(' :: '*' ::
            (sp2 ++ (name ++ (ssp2 ++ ')' :: '(' :: rest)))))))) with
        | some n => some n
        | none => lastWordMatch (s0 ++ (typedefLit ++ (sp1 ++ (ret ++ (ssp ++ '(' :: '*' ::
            (sp2 ++ (name ++ (ssp2 ++ ')' :: '(' :: rest))))))))) = some name
    rw [h]

/-- Claim C5, witness: `typedef void (* AccelDataHandler)(AccelData *data)`
yields `AccelDataHandler` through the function-pointer strategy. -/
theorem C5_witness :
    parse_declaration "Type"
        ([] ++ (typedefLit ++ ([' '] ++ ("void".toList ++ ([' '] ++ '(' :: '*' ::
          ([' '] ++ ("AccelDataHandler".toList ++ ([] ++ ')' :: '(' ::
            "AccelData *data)".toList)))))))) = some "AccelDataHandler".toList :=
  C5_thm.2 [] [' '] "void".toList [' '] [' '] "AccelDataHandler".toList [] "AccelData *data)".toList
    (by decide) (by decide) (by decide) (by decide) (by decide) (by decide)
    (by decide) (by decide) (by decide)

/-! ### Claim C3: the Function pattern -/

theorem afterType_run {sp1 name sp2 : List Char} (rest : List Char)
    (h1 : IsSpaceRun sp1) (h2 : sp1 ≠ []) (hn : IsWordRun name) (h3 : IsSpaceRun sp2) :
    afterType (sp1 ++ (name ++ (sp2 ++ '(' :: rest))) = some name := by
  obtain ⟨a, sp1b, rfl⟩ : ∃ a sp1b, sp1 = a :: sp1b := by
    cases sp1 with
    | nil => exact absurd rfl h2
    | cons a sp1b => exact ⟨a, sp1b, rfl⟩
  obtain ⟨n0, n1, rfl⟩ : ∃ n0 n1, name = n0 :: n1 := by
    cases name with
    | nil => exact absurd rfl hn.1
    | cons n0 n1 => exact ⟨n0, n1, rfl⟩
  have hrn : ∀ x : Char, ((n0 :: n1) ++ (sp2 ++ '(' :: rest)).head? = some x →
      isSpaceChar x = false := by
    intro x hx
    simp only [List.cons_append, List.head?_cons, Option.some.injEq] at hx
    rw [← hx]
    exact word_not_space (hn.2 n0 (List.mem_cons_self n0 n1))
  have hrw := head_not_word_of_spaces h3 (show isWordChar '(' = false by decide) rest
  have f1 : ((a :: sp1b) ++ ((n0 :: n1) ++ (sp2 ++ '(' :: rest))).takeWhile isSpaceChar
      = a :: sp1b := takeWhile_append_run _ _ _ h1 hrn
  have f2 : ((a :: sp1b) ++ ((n0 :: n1) ++ (sp2 ++ '(' :: rest))).dropWhile isSpaceChar
      = (n0 :: n1) ++ (sp2 ++ '(' :: rest) := dropWhile_append_run _ _ _ h1 hrn
  have f3 : ((n0 :: n1) ++ (sp2 ++ '(' :: rest)).takeWhile isWordChar = n0 :: n1 :=
    takeWhile_append_run _ _ _ hn.2 hrw
  have f4 : ((n0 :: n1) ++ (sp2 ++ '(' :: rest)).dropWhile isWordChar
      = sp2 ++ '(' :: rest := dropWhile_append_run _ _ _ hn.2 hrw
  have f5 : (sp2 ++ '(' :: rest).dropWhile isSpaceChar = '(' :: rest :=
    dropWhile_append_run _ _ _ h3 (fun x hx => by
      simp only [List.head?_cons, Option.some.injEq] at hx
      rw [← hx]; decide)
  unfold afterType
  rw [f1, if_neg (List.cons_ne_nil a sp1b)]
  dsimp only
  rw [f2, f3, f4, if_neg (List.cons_ne_nil n0 n1), f5]
  dsimp only
  rw [if_pos rfl]

theorem afterType_noname {sp2 : List Char} (rest : List Char) (h3 : IsSpaceRun sp2) :
    afterType (sp2 ++ '(' :: rest) = none := by
  cases sp2 with
  | nil =>
    unfold afterType
    rw [List.nil_append, List.takeWhile_cons,
      if_neg (show ¬(isSpaceChar '(' = true) by decide), if_pos rfl]
  | cons q sp2b =>
    have f6 : ((q :: sp2b) ++ '(' :: rest).takeWhile isSpaceChar = q :: sp2b :=
      takeWhile_append_run _ _ _ h3 (fun x hx => by
        simp only [List.head?_cons, Option.some.injEq] at hx
        rw [← hx]; decide)
    have f5 : ((q :: sp2b) ++ '(' :: rest).dropWhile isSpaceChar = '(' :: rest :=
      dropWhile_append_run _ _ _ h3 (fun x hx => by
        simp only [List.head?_cons, Option.some.injEq] at hx
        rw [← hx]; decide)
    unfold afterType
    rw [f6, if_neg (List.cons_ne_nil q sp2b)]
    dsimp only
    rw [f5, List.takeWhile_cons, if_neg (show ¬(isWordChar '(' = true) by decide),
      if_pos rfl]

theorem typeThen_stop {name sp2 : List Char} (rest : List Char)
    (hn : IsWordRun name) (h3 : IsSpaceRun sp2) :
    typeThen (name ++ (sp2 ++ '(' :: rest)) = none := by
  obtain ⟨n0, n1, rfl⟩ : ∃ n0 n1, name = n0 :: n1 := by
    cases name with
    | nil => exact absurd rfl hn.1
    | cons n0 n1 => exact ⟨n0, n1, rfl⟩
  have hrw := head_not_word_of_spaces h3 (show isWordChar '(' = false by decide) rest
  have f3 : ((n0 :: n1) ++ (sp2 ++ '(' :: rest)).takeWhile isWordChar = n0 :: n1 :=
    takeWhile_append_run _ _ _ hn.2 hrw
  have f4 : ((n0 :: n1) ++ (sp2 ++ '(' :: rest)).dropWhile isWordChar
      = sp2 ++ '(' :: rest := dropWhile_append_run _ _ _ hn.2 hrw
  have f5 : (sp2 ++ '(' :: rest).dropWhile isSpaceChar = '(' :: rest :=
    dropWhile_append_run _ _ _ h3 (fun x hx => by
      simp only [List.head?_cons, Option.some.injEq] at hx
      rw [← hx]; decide)
  unfold typeThen
  rw [f3, if_neg (List.cons_ne_nil n0 n1)]
  dsimp only
  rw [f4, f5]
  dsimp only
  rw [if_neg (show ¬('(' = '*') by decide)]
  dsimp only
  exact afterType_noname rest h3

theorem typeThen_star_head (Z : List Char) : typeThen ('*' :: Z) = none := by
  unfold typeThen
  rw [List.takeWhile_cons, if_neg (show ¬(isWordChar '*' = true) by decide), if_pos rfl]

theorem typeThen_nostar {ret sp1 name sp2 : List Char} (rest : List Char)
    (hret : IsWordRun ret) (hsp1 : IsSpaceRun sp1) (h1 : sp1 ≠ [])
    (hname : IsWordRun name) (hsp2 : IsSpaceRun sp2) :
    typeThen (ret ++ (sp1 ++ (name ++ (sp2 ++ '(' :: rest)))) = some name := by
  obtain ⟨r0, r1, rfl⟩ : ∃ r0 r1, ret = r0 :: r1 := by
    cases ret with
    | nil => exact absurd rfl hret.1
    | cons r0 r1 => exact ⟨r0, r1, rfl⟩
  obtain ⟨a, sp1b, rfl⟩ : ∃ a sp1b, sp1 = a :: sp1b := by
    cases sp1 with
    | nil => exact absurd rfl h1
    | cons a sp1b => exact ⟨a, sp1b, rfl⟩
  obtain ⟨n0, n1, rfl⟩ : ∃ n0 n1, name = n0 :: n1 := by
    cases name with
    | nil => exact absurd rfl hname.1
    | cons n0 n1 => exact ⟨n0, n1, rfl⟩
  have hrT : ∀ x : Char, ((a :: sp1b) ++ ((n0 :: n1) ++ (sp2 ++ '(' :: rest))).head?
      = some x → isWordChar x = false := by
    intro x hx
    simp only [List.cons_append, List.head?_cons, Option.some.injEq] at hx
    rw [← hx]
    exact space_not_word (hsp1 a (List.mem_cons_self a sp1b))
  have hrn : ∀ x : Char, ((n0 :: n1) ++ (sp2 ++ '(' :: rest)).head? = some x →
      isSpaceChar x = false := by
    intro x hx
    simp only [List.cons_append, List.head?_cons, Option.some.injEq] at hx
    rw [← hx]
    exact word_not_space (hname.2 n0 (List.mem_cons_self n0 n1))
  have g1 : ((r0 :: r1) ++ ((a :: sp1b) ++ ((n0 :: n1) ++ (sp2 ++ '(' :: rest)))).takeWhile
      isWordChar = r0 :: r1 := takeWhile_append_run _ _ _ hret.2 hrT
  have g2 : ((r0 :: r1) ++ ((a :: sp1b) ++ ((n0 :: n1) ++ (sp2 ++ '(' :: rest)))).dropWhile
      isWordChar = (a :: sp1b) ++ ((n0 :: n1) ++ (sp2 ++ '(' :: rest)) :=
    dropWhile_append_run _ _ _ hret.2 hrT
  have g3 : ((a :: sp1b) ++ ((n0 :: n1) ++ (sp2 ++ '(' :: rest))).dropWhile isSpaceChar
      = (n0 :: n1) ++ (sp2 ++ '(' :: rest) := dropWhile_append_run _ _ _ hsp1 hrn
  have hn0 : ¬(n0 = '*') := by
    intro he
    have hw := hname.2 n0 (List.mem_cons_self n0 n1)
    rw [he] at hw
    exact absurd hw (by decide)
  unfold typeThen
  rw [g1, if_neg (List.cons_ne_nil r0 r1)]
  dsimp only
  rw [g2, g3, List.cons_append]
  dsimp only
  rw [if_neg hn0]
  dsimp only
  rw [← List.cons_append]
  exact afterType_run rest hsp1 h1 hname hsp2

theorem typeThen_star {ret ssp sp1 name sp2 : List Char} (rest : List Char)
    (hret : IsWordRun ret) (hssp : IsSpaceRun ssp) (hsp1 : IsSpaceRun sp1)
    (h1 : sp1 ≠ []) (hname : IsWordRun name) (hsp2 : IsSpaceRun sp2) :
    typeThen (ret ++ (ssp ++ '*' :: (sp1 ++ (name ++ (sp2 ++ '(' :: rest)))))
      = some name := by
  obtain ⟨r0, r1, rfl⟩ : ∃ r0 r1, ret = r0 :: r1 := by
    cases ret with
    | nil => exact absurd rfl hret.1
    | cons r0 r1 => exact ⟨r0, r1, rfl⟩
  have hrY := head_not_word_of_spaces hssp (show isWordChar '*' = false by decide)
    (sp1 ++ (name ++ (sp2 ++ '(' :: rest)))
  have g1 : ((r0 :: r1) ++ (ssp ++ '*' :: (sp1 ++ (name ++ (sp2 ++ '(' :: rest))))).takeWhile
      isWordChar = r0 :: r1 := takeWhile_append_run _ _ _ hret.2 hrY
  have g2 : ((r0 :: r1) ++ (ssp ++ '*' :: (sp1 ++ (name ++ (sp2 ++ '(' :: rest))))).dropWhile
      isWordChar = ssp ++ '*' :: (sp1 ++ (name ++ (sp2 ++ '(' :: rest))) :=
    dropWhile_append_run _ _ _ hret.2 hrY
  have g3 : (ssp ++ '*' :: (sp1 ++ (name ++ (sp2 ++ '(' :: rest)))).dropWhile isSpaceChar
      = '*' :: (sp1 ++ (name ++ (sp2 ++ '(' :: rest))) :=
    dropWhile_append_run _ _ _ hssp (fun x hx => by
      simp only [List.head?_cons, Option.some.injEq] at hx
      rw [← hx]; decide)
  unfold typeThen
  rw [g1, if_neg (List.cons_ne_nil r0 r1)]
  dsimp only
  rw [g2, g3]
  dsimp only
  rw [if_pos rfl, afterType_run rest hsp1 h1 hname hsp2]

theorem functionMatch_run_mod {s0 m msp ret T name : List Char}
    (hs0 : IsSpaceRun s0) (hm : IsWordRun m) (hmsp : IsSpaceRun msp) (hne : msp ≠ [])
    (hret : IsWordRun ret)
    (hTT : typeThen (ret ++ T) = some name) :
    functionMatch (s0 ++ ((m ++ msp) ++ (ret ++ T))) = some name := by
  obtain ⟨m0, m1, rfl⟩ : ∃ m0 m1, m = m0 :: m1 := by
    cases m with
    | nil => exact absurd rfl hm.1
    | cons m0 m1 => exact ⟨m0, m1, rfl⟩
  obtain ⟨q, mspb, rfl⟩ : ∃ q mspb, msp = q :: mspb := by
    cases msp with
    | nil => exact absurd rfl hne
    | cons q mspb => exact ⟨q, mspb, rfl⟩
  obtain ⟨r0, r1, rfl⟩ : ∃ r0 r1, ret = r0 :: r1 := by
    cases ret with
    | nil => exact absurd rfl hret.1
    | cons r0 r1 => exact ⟨r0, r1, rfl⟩
  rw [List.append_assoc]
  have hrq : ∀ x : Char, ((q :: mspb) ++ ((r0 :: r1) ++ T)).head? = some x →
      isWordChar x = false := by
    intro x hx
    simp only [List.cons_append, List.head?_cons, Option.some.injEq] at hx
    rw [← hx]
    exact space_not_word (hmsp q (List.mem_cons_self q mspb))
  have hrr : ∀ x : Char, ((r0 :: r1) ++ T).head? = some x → isSpaceChar x = false := by
    intro x hx
    simp only [List.cons_append, List.head?_cons, Option.some.injEq] at hx
    rw [← hx]
    exact word_not_space (hret.2 r0 (List.mem_cons_self r0 r1))
  have a0 : (s0 ++ ((m0 :: m1) ++ ((q :: mspb) ++ ((r0 :: r1) ++ T)))).dropWhile isSpaceChar
      = (m0 :: m1) ++ ((q :: mspb) ++ ((r0 :: r1) ++ T)) :=
    dropWhile_append_run _ _ _ hs0 (fun x hx => by
      simp only [List.cons_append, List.head?_cons, Option.some.injEq] at hx
      rw [← hx]
      exact word_not_space (hm.2 m0 (List.mem_cons_self m0 m1)))
  have a1 : ((m0 :: m1) ++ ((q :: mspb) ++ ((r0 :: r1) ++ T))).takeWhile isWordChar
      = m0 :: m1 := takeWhile_append_run _ _ _ hm.2 hrq
  have a2 : ((m0 :: m1) ++ ((q :: mspb) ++ ((r0 :: r1) ++ T))).dropWhile isWordChar
      = (q :: mspb) ++ ((r0 :: r1) ++ T) := dropWhile_append_run _ _ _ hm.2 hrq
  have a3 : ((q :: mspb) ++ ((r0 :: r1) ++ T)).takeWhile isSpaceChar = q :: mspb :=
    takeWhile_append_run _ _ _ hmsp hrr
  have a4 : ((q :: mspb) ++ ((r0 :: r1) ++ T)).dropWhile isSpaceChar = (r0 :: r1) ++ T :=
    dropWhile_append_run _ _ _ hmsp hrr
  unfold functionMatch
  dsimp only
  rw [a0, a1, if_neg (List.cons_ne_nil m0 m1), a2, a3,
    if_neg (List.cons_ne_nil q mspb), a4, hTT]

theorem functionMatch_run_nomod {s0 ret T name : List Char}
    (hs0 : IsSpaceRun s0) (hret : IsWordRun ret)
    (hTh : ∀ x : Char, T.head? = some x → isWordChar x = false)
    (hWM : (if T.takeWhile isSpaceChar = [] then none
            else typeThen (T.dropWhile isSpaceChar)) = (none : Option (List Char)))
    (hTT : typeThen (ret ++ T) = some name) :
    functionMatch (s0 ++ (ret ++ T)) = some name := by
  obtain ⟨r0, r1, rfl⟩ : ∃ r0 r1, ret = r0 :: r1 := by
    cases ret with
    | nil => exact absurd rfl hret.1
    | cons r0 r1 => exact ⟨r0, r1, rfl⟩
  have n0 : (s0 ++ ((r0 :: r1) ++ T)).dropWhile isSpaceChar = (r0 :: r1) ++ T :=
    dropWhile_append_run _ _ _ hs0 (fun x hx => by
      simp only [List.cons_append, List.head?_cons, Option.some.injEq] at hx
      rw [← hx]
      exact word_not_space (hret.2 r0 (List.mem_cons_self r0 r1)))
  have n1 : ((r0 :: r1) ++ T).takeWhile isWordChar = r0 :: r1 :=
    takeWhile_append_run _ _ _ hret.2 hTh
  have n2 : ((r0 :: r1) ++ T).dropWhile isWordChar = T :=
    dropWhile_append_run _ _ _ hret.2 hTh
  unfold functionMatch
  dsimp only
  rw [n0, n1, if_neg (List.cons_ne_nil r0 r1), n2, hWM]
  dsimp only
  exact hTT

theorem afterType_mem {cs n : List Char} (h : afterType cs = some n) : '(' ∈ cs := by
  unfold afterType at h
  by_cases h1 : cs.takeWhile isSpaceChar = []
  · rw [if_pos h1] at h
    exact Option.noConfusion h
  · rw [if_neg h1] at h
    dsimp only at h
    by_cases h2 : (cs.dropWhile isSpaceChar).takeWhile isWordChar = []
    · rw [if_pos h2] at h
      exact Option.noConfusion h
    · rw [if_neg h2] at h
      cases hm : ((cs.dropWhile isSpaceChar).dropWhile isWordChar).dropWhile isSpaceChar with
      | nil =>
        rw [hm] at h
        exact Option.noConfusion h
      | cons c2 t =>
        rw [hm] at h
        dsimp only at h
        by_cases hc2 : c2 = '('
        · subst hc2
          have hmem : '(' ∈ ((cs.dropWhile isSpaceChar).dropWhile isWordChar).dropWhile
              isSpaceChar := by
            rw [hm]
            exact List.mem_cons_self _ _
          exact mem_of_mem_dropWhile (mem_of_mem_dropWhile (mem_of_mem_dropWhile hmem))
        · rw [if_neg hc2] at h
          exact Option.noConfusion h

theorem typeThen_mem {cs n : List Char} (h : typeThen cs = some n) : '(' ∈ cs := by
  unfold typeThen at h
  by_cases h1 : cs.takeWhile isWordChar = []
  · rw [if_pos h1] at h
    exact Option.noConfusion h
  · rw [if_neg h1] at h
    dsimp only at h
    cases hm : (cs.dropWhile isWordChar).dropWhile isSpaceChar with
    | nil =>
      rw [hm] at h
      dsimp only at h
      exact mem_of_mem_dropWhile (afterType_mem h)
    | cons c2 cs3 =>
      rw [hm] at h
      dsimp only at h
      by_cases hc2 : c2 = '*'
      · rw [if_pos hc2] at h
        cases hA : afterType cs3 with
        | some k =>
          have h3 : '(' ∈ (cs.dropWhile isWordChar).dropWhile isSpaceChar := by
            rw [hm]
            exact List.mem_cons_of_mem c2 (afterType_mem hA)
          exact mem_of_mem_dropWhile (mem_of_mem_dropWhile h3)
        | none =>
          rw [hA] at h
          dsimp only at h
          exact mem_of_mem_dropWhile (afterType_mem h)
      · rw [if_neg hc2] at h
        dsimp only at h
        exact mem_of_mem_dropWhile (afterType_mem h)

theorem functionMatch_mem {cs n : List Char} (h : functionMatch cs = some n) : '(' ∈ cs := by
  unfold functionMatch at h
  dsimp only at h
  by_cases h1 : (cs.dropWhile isSpaceChar).takeWhile isWordChar = []
  · rw [if_pos h1] at h
    dsimp only at h
    exact mem_of_mem_dropWhile (typeThen_mem h)
  · rw [if_neg h1] at h
    by_cases h2 : ((cs.dropWhile isSpaceChar).dropWhile isWordChar).takeWhile isSpaceChar = []
    · rw [if_pos h2] at h
      dsimp only at h
      exact mem_of_mem_dropWhile (typeThen_mem h)
    · rw [if_neg h2] at h
      cases hT : typeThen
          (((cs.dropWhile isSpaceChar).dropWhile isWordChar).dropWhile isSpaceChar) with
      | some k =>
        exact mem_of_mem_dropWhile
          (mem_of_mem_dropWhile (mem_of_mem_dropWhile (typeThen_mem hT)))
      | none =>
        rw [hT] at h
        dsimp only at h
        exact mem_of_mem_dropWhile (typeThen_mem h)

/-- The well-formed Function signature shape of the claim, read off the
`function` pattern: optional leading whitespace, an optional single modifier
word (followed by whitespace), a return-type word optionally followed by a
pointer `*` (with optional whitespace before it), mandatory whitespace, the
name, optional whitespace, then `(` and an arbitrary remainder. -/
def FunctionShape (text name : List Char) : Prop :=
  ∃ s0 modpart ret starpart sp1 sp2 rest,
    text = s0 ++ (modpart ++ (ret ++ (starpart ++ (sp1 ++ (name ++ (sp2 ++ '(' :: rest)))))) ∧
    IsSpaceRun s0 ∧
    (modpart = [] ∨ ∃ m msp, modpart = m ++ msp ∧ IsWordRun m ∧ IsSpaceRun msp ∧ msp ≠ []) ∧
    IsWordRun ret ∧
    (starpart = [] ∨ ∃ ssp, starpart = ssp ++ ['*'] ∧ IsSpaceRun ssp) ∧
    IsSpaceRun sp1 ∧ sp1 ≠ [] ∧ IsWordRun name ∧ IsSpaceRun sp2

/-- Claim C3: every Function signature text of the well-formed shape
`RET NAME( ... )`, optionally preceded by a single leading modifier word,
yields exactly `NAME`; and a text containing no parenthesis at all (so no
parenthesis-delimited signature shape can be found) makes extraction
raise. -/
theorem C3_thm :
    (∀ (text name : List Char), FunctionShape text name →
        parse_declaration "Function" text = some name) ∧
      (∀ text : List Char, '(' ∉ text → parse_declaration "Function" text = none) := by
  constructor
  · intro text name hshape
    obtain ⟨s0, modpart, ret, starpart, sp1, sp2, rest, heq, hs0, hmod, hret, hstar,
      hsp1, h1, hname, hsp2⟩ := hshape
    subst heq
    show functionMatch _ = some name
    have hTT : typeThen (ret ++ (starpart ++ (sp1 ++ (name ++ (sp2 ++ '(' :: rest)))))
        = some name := by
      rcases hstar with rfl | ⟨ssp, rfl, hssp⟩
      · rw [List.nil_append]
        exact typeThen_nostar rest hret hsp1 h1 hname hsp2
      · rw [List.append_assoc, List.singleton_append]
        exact typeThen_star rest hret hssp hsp1 h1 hname hsp2
    rcases hmod with rfl | ⟨m, msp, rfl, hm, hmsp, hne⟩
    · rw [List.nil_append]
      rcases hstar with rfl | ⟨ssp, rfl, hssp⟩
      · rw [List.nil_append]
        rw [List.nil_append] at hTT
        obtain ⟨a, sp1b, rfl⟩ : ∃ a sp1b, sp1 = a :: sp1b := by
          cases sp1 with
          | nil => exact absurd rfl h1
          | cons a sp1b => exact ⟨a, sp1b, rfl⟩
        obtain ⟨n0, n1, rfl⟩ : ∃ n0 n1, name = n0 :: n1 := by
          cases name with
          | nil => exact absurd rfl hname.1
          | cons n0 n1 => exact ⟨n0, n1, rfl⟩
        apply functionMatch_run_nomod hs0 hret
        · intro x hx
          simp only [List.cons_append, List.head?_cons, Option.some.injEq] at hx
          rw [← hx]
          exact space_not_word (hsp1 a (List.mem_cons_self a sp1b))
        · have hrn : ∀ x : Char, ((n0 :: n1) ++ (sp2 ++ '(' :: rest)).head? = some x →
              isSpaceChar x = false := by
            intro x hx
            simp only [List.cons_append, List.head?_cons, Option.some.injEq] at hx
            rw [← hx]
            exact word_not_space (hname.2 n0 (List.mem_cons_self n0 n1))
          have w1 : ((a :: sp1b) ++ ((n0 :: n1) ++ (sp2 ++ '(' :: rest))).takeWhile
              isSpaceChar = a :: sp1b := takeWhile_append_run _ _ _ hsp1 hrn
          have w2 : ((a :: sp1b) ++ ((n0 :: n1) ++ (sp2 ++ '(' :: rest))).dropWhile
              isSpaceChar = (n0 :: n1) ++ (sp2 ++ '(' :: rest) :=
            dropWhile_append_run _ _ _ hsp1 hrn
          rw [w1, if_neg (List.cons_ne_nil a sp1b), w2]
          exact typeThen_stop rest hname hsp2
        · exact hTT
      · rw [List.append_assoc, List.singleton_append]
        rw [List.append_assoc, List.singleton_append] at hTT
        cases ssp with
        | nil =>
          rw [List.nil_append]
          rw [List.nil_append] at hTT
          apply functionMatch_run_nomod hs0 hret
          · intro x hx
            simp only [List.head?_cons, Option.some.injEq] at hx
            rw [← hx]
            decide
          · rw [List.takeWhile_cons,
              if_neg (show ¬(isSpaceChar '*' = true) by decide), if_pos rfl]
          · exact hTT
        | cons u sspb =>
          apply functionMatch_run_nomod hs0 hret
          · intro x hx
            simp only [List.cons_append, List.head?_cons, Option.some.injEq] at hx
            rw [← hx]
            exact space_not_word (hssp u (List.mem_cons_self u sspb))
          · have w1 : ((u :: sspb) ++ '*' :: (sp1 ++ (name ++ (sp2 ++ '(' :: rest)))).takeWhile
                isSpaceChar = u :: sspb :=
              takeWhile_append_run _ _ _ hssp (fun x hx => by
                simp only [List.head?_cons, Option.some.injEq] at hx
                rw [← hx]; decide)
            have w2 : ((u :: sspb) ++ '*' :: (sp1 ++ (name ++ (sp2 ++ '(' :: rest)))).dropWhile
                isSpaceChar = '*' :: (sp1 ++ (name ++ (sp2 ++ '(' :: rest))) :=
              dropWhile_append_run _ _ _ hssp (fun x hx => by
                simp only [List.head?_cons, Option.some.injEq] at hx
                rw [← hx]; decide)
            rw [w1, if_neg (List.cons_ne_nil u sspb), w2]
            exact typeThen_star_head _
          · exact hTT
    · exact functionMatch_run_mod hs0 hm hmsp hne hret hTT
  · intro text hnot
    show functionMatch text = none
    cases hfm : functionMatch text with
    | none => rfl
    | some k => exact absurd (functionMatch_mem hfm) hnot

/-- Claim C3, witness: `void foo(int x)` yields `foo`, and a text without
any parenthesis raises. -/
theorem C3_witness :
    parse_declaration "Function"
        ([] ++ ([] ++ ("void".toList ++ ([] ++ ([' '] ++ ("foo".toList ++
          ([] ++ '(' :: "int x)".toList))))))) = some "foo".toList :=
  C3_thm.1 _ _ ⟨[], [], "void".toList, [], [' '], [], "int x)".toList, rfl,
    by decide, Or.inl rfl, by decide, Or.inl rfl, by decide, by decide,
    by decide, by decide⟩

/-! ### Claims C6 and C10: anchor association inside a section -/

theorem parse_section_go_anchor {el : Element} (h : is_anchor el = true)
    (path ty : String) (a : Option String) (rest : List Element) :
    HTMLParser.parse_section_go path ty a (el :: rest) =
      HTMLParser.parse_section_go path ty el.idAttr rest := by
  simp only [HTMLParser.parse_section_go, h, if_pos]

theorem go_skip {el : Element} (hael : is_anchor el = false)
    (hdecl : is_declaration el = false) (path ty : String) (a : Option String)
    (rest : List Element) :
    HTMLParser.parse_section_go path ty a (el :: rest) =
      HTMLParser.parse_section_go path ty a rest := by
  simp only [HTMLParser.parse_section_go, hael, Bool.false_eq_true, if_false]
  rw [if_pos hdecl]

theorem go_err_noproto {el : Element} (hael : is_anchor el = false)
    (hdecl : ¬(is_declaration el = false)) (hmp : el.memproto = none)
    (path ty : String) (a : Option String) (rest : List Element) :
    HTMLParser.parse_section_go path ty a (el :: rest) =
      Except.error "AttributeError" := by
  simp only [HTMLParser.parse_section_go, hael, Bool.false_eq_true, if_false]
  rw [if_neg hdecl, hmp]

theorem go_err_notable {el : Element} (hael : is_anchor el = false)
    (hdecl : ¬(is_declaration el = false)) (hmp : el.memproto = some none)
    (path ty : String) (a : Option String) (rest : List Element) :
    HTMLParser.parse_section_go path ty a (el :: rest) =
      Except.error "AttributeError" := by
  simp only [HTMLParser.parse_section_go, hael, Bool.false_eq_true, if_false]
  rw [if_neg hdecl, hmp]

theorem go_err_nomatch {el : Element} (hael : is_anchor el = false)
    (hdecl : ¬(is_declaration el = false)) {declaration : List Char}
    (hmp : el.memproto = some (some declaration)) (ty : String)
    (hpd : parse_declaration ty declaration = none)
    (path : String) (a : Option String) (rest : List Element) :
    HTMLParser.parse_section_go path ty a (el :: rest) =
      Except.error "AttributeError" := by
  simp only [HTMLParser.parse_section_go, hael, Bool.false_eq_true, if_false]
  rw [if_neg hdecl, hmp]
  dsimp only
  rw [hpd]

theorem go_decl {el : Element} (hael : is_anchor el = false)
    (hdecl : ¬(is_declaration el = false)) {declaration obj : List Char}
    (hmp : el.memproto = some (some declaration)) (ty : String)
    (hpd : parse_declaration ty declaration = some obj)
    (path : String) (a : Option String) (rest : List Element) :
    HTMLParser.parse_section_go path ty a (el :: rest) =
      match HTMLParser.parse_section_go path ty a rest with
      | Except.error e => Except.error e
      | Except.ok recs =>
        Except.ok (SearchIndexData.mk obj ty (HTMLParser.anchorPath path a) :: recs) := by
  simp only [HTMLParser.parse_section_go, hael, Bool.false_eq_true, if_false]
  rw [if_neg hdecl, hmp]
  dsimp only
  rw [hpd]

theorem parse_section_go_paths (path ty : String) (a : Option String) :
    ∀ (elements : List Element) (out : List SearchIndexData),
      (∀ el ∈ elements, is_anchor el = false) →
      HTMLParser.parse_section_go path ty a elements = Except.ok out →
      ∀ r ∈ out, r.path = HTMLParser.anchorPath path a := by
  intro elements
  induction elements with
  | nil =>
    intro out hno h r hr
    simp only [HTMLParser.parse_section_go] at h
    injection h with h
    rw [← h] at hr
    simp at hr
  | cons el rest ih =>
    intro out hno h r hr
    have hael := hno el (List.mem_cons_self el rest)
    simp only [HTMLParser.parse_section_go, hael, Bool.false_eq_true, if_false] at h
    by_cases hdecl : is_declaration el = false
    · rw [if_pos hdecl] at h
      exact ih out (fun x hx => hno x (List.mem_cons_of_mem el hx)) h r hr
    · rw [if_neg hdecl] at h
      cases hmp : el.memproto with
      | none =>
        rw [hmp] at h
        exact Except.noConfusion h
      | some mt =>
        rw [hmp] at h
        cases mt with
        | none =>
          dsimp only at h
          exact Except.noConfusion h
        | some declaration =>
          dsimp only at h
          cases hpd : parse_declaration ty declaration with
          | none =>
            rw [hpd] at h
            exact Except.noConfusion h
          | some obj =>
            rw [hpd] at h
            dsimp only at h
            cases hrec : HTMLParser.parse_section_go path ty a rest with
            | error e =>
              rw [hrec] at h
              exact Except.noConfusion h
            | ok recs =>
              rw [hrec] at h
              dsimp only at h
              injection h with h
              rw [← h] at hr
              rcases List.mem_cons.mp hr with rfl | hr2
              · rfl
              · exact ih recs (fun x hx => hno x (List.mem_cons_of_mem el hx)) hrec r hr2

theorem parse_section_go_append (path ty : String) (a : Option String) :
    ∀ (mid tail : List Element) (out : List SearchIndexData),
      (∀ el ∈ mid, is_anchor el = false) →
      HTMLParser.parse_section_go path ty a (mid ++ tail) = Except.ok out →
      ∃ o1 o2, out = o1 ++ o2 ∧
        HTMLParser.parse_section_go path ty a mid = Except.ok o1 ∧
        HTMLParser.parse_section_go path ty a tail = Except.ok o2 := by
  intro mid
  induction mid with
  | nil =>
    intro tail out hno h
    exact ⟨[], out, rfl, rfl, h⟩
  | cons el mid2 ih =>
    intro tail out hno h
    have hael := hno el (List.mem_cons_self el mid2)
    rw [List.cons_append] at h
    by_cases hdecl : is_declaration el = false
    · rw [go_skip hael hdecl] at h
      obtain ⟨o1, o2, heq, hg1, hg2⟩ :=
        ih tail out (fun x hx => hno x (List.mem_cons_of_mem el hx)) h
      exact ⟨o1, o2, heq, by rw [go_skip hael hdecl, hg1], hg2⟩
    · cases hmp : el.memproto with
      | none =>
        rw [go_err_noproto hael hdecl hmp] at h
        exact Except.noConfusion h
      | some mt =>
        cases mt with
        | none =>
          rw [go_err_notable hael hdecl hmp] at h
          exact Except.noConfusion h
        | some declaration =>
          cases hpd : parse_declaration ty declaration with
          | none =>
            rw [go_err_nomatch hael hdecl hmp ty hpd] at h
            exact Except.noConfusion h
          | some obj =>
            rw [go_decl hael hdecl hmp ty hpd] at h
            cases hrec : HTMLParser.parse_section_go path ty a (mid2 ++ tail) with
            | error e =>
              rw [hrec] at h
              exact Except.noConfusion h
            | ok recs =>
              rw [hrec] at h
              dsimp only at h
              injection h with h
              obtain ⟨o1, o2, heq, hg1, hg2⟩ :=
                ih tail recs (fun x hx => hno x (List.mem_cons_of_mem el hx)) hrec
              refine ⟨SearchIndexData.mk obj ty (HTMLParser.anchorPath path a) :: o1, o2,
                ?_, ?_, hg2⟩
              · rw [← h, heq, List.cons_append]
              · rw [go_decl hael hdecl hmp ty hpd, hg1]

/-- Claim C6: once an anchor marker carrying identifier `A` has been seen,
every declaration block up to the next anchor marker is emitted with location
`path#A` (the identifier is sticky and overrides any earlier anchor state),
and a declaration block scanned while no anchor is set is emitted with the
bare page path. -/
theorem C6_thm :
    (∀ (path ty : String) (a0 : Option String) (aEl : Element) (A : String)
        (mid tail : List Element) (out : List SearchIndexData),
      is_anchor aEl = true → aEl.idAttr = some A → A ≠ "" →
      (∀ el ∈ mid, is_anchor el = false) →
      HTMLParser.parse_section_go path ty a0 (aEl :: (mid ++ tail)) = Except.ok out →
      ∃ o1 o2, out = o1 ++ o2 ∧
        (∀ r ∈ o1, r.path = path ++ "#" ++ A) ∧
        HTMLParser.parse_section_go path ty (some A) tail = Except.ok o2) ∧
      (∀ (path ty : String) (elements : List Element) (out : List SearchIndexData),
        (∀ el ∈ elements, is_anchor el = false) →
        HTMLParser.parse_section_go path ty none elements = Except.ok out →
        ∀ r ∈ out, r.path = path) := by
  constructor
  · intro path ty a0 aEl A mid tail out ha hid hAne hno h
    rw [parse_section_go_anchor ha, hid] at h
    obtain ⟨o1, o2, heq, hg1, hg2⟩ := parse_section_go_append path ty (some A) mid tail out hno h
    refine ⟨o1, o2, heq, ?_, hg2⟩
    intro r hr
    have hp := parse_section_go_paths path ty (some A) mid o1 hno hg1 r hr
    rw [hp]
    simp only [HTMLParser.anchorPath]
    rw [if_neg hAne]
  · intro path ty elements out hno h
    intro r hr
    exact parse_section_go_paths path ty none elements out hno h r hr

/-- Claim C6, witness: an anchor `ga1` followed by one function declaration
emits that record with location `group__foo.html#ga1`. -/
theorem C6_witness :
    ∃ o1 o2,
      [SearchIndexData.mk "foo".toList "Function" "group__foo.html#ga1"] = o1 ++ o2 ∧
        (∀ r ∈ o1, r.path = "group__foo.html" ++ "#" ++ "ga1") ∧
        HTMLParser.parse_section_go "group__foo.html" "Function" (some "ga1") [] =
          Except.ok o2 :=
  C6_thm.1 "group__foo.html" "Function" none
    (Element.mk (some "a") ["anchor"] (some "ga1") none none) "ga1"
    [Element.mk (some "div") ["memitem"] none none (some (some "void foo(int x)".toList))]
    [] _ (by decide) rfl (by decide) (by decide) rfl

/-- Claim C10: every `a` element inside a section is an anchor marker
whatever its classes, and its `id` attribute (possibly absent) becomes the
current anchor; in particular an `a` element with no `id` resets the anchor
to `None`, after which declaration blocks are emitted with the bare page
path even if an anchor had been set before. -/
theorem C10_thm :
    (∀ (path ty : String) (a0 idv : Option String) (cls : List String)
        (s : Option String) (mp : Option (Option (List Char))) (rest : List Element),
      HTMLParser.parse_section_go path ty a0
          (Element.mk (some "a") cls idv s mp :: rest) =
        HTMLParser.parse_section_go path ty idv rest) ∧
      (∀ (path ty : String) (rest : List Element) (out : List SearchIndexData),
        (∀ el ∈ rest, is_anchor el = false) →
        HTMLParser.parse_section_go path ty none rest = Except.ok out →
        ∀ r ∈ out, r.path = path) := by
  constructor
  · intro path ty a0 idv cls s mp rest
    exact parse_section_go_anchor
      (show is_anchor (Element.mk (some "a") cls idv s mp) = true from rfl)
      path ty a0 rest
  · intro path ty rest out hno h
    exact parse_section_go_paths path ty none rest out hno h

/-- Claim C10, witness: after the anchor state is reset by an id-less `a`
element, a following function declaration is emitted with the bare page
path. -/
theorem C10_witness :
    ∀ r ∈ [SearchIndexData.mk "foo".toList "Function" "group__foo.html"],
      r.path = "group__foo.html" :=
  C10_thm.2 "group__foo.html" "Function"
    [Element.mk (some "div") ["memitem"] none none (some (some "void foo(int x)".toList))]
    _ (by decide) rfl
